import Mathlib

/-!
Verification of the grammar-correction pipeline core
(`split_text` / `correct_text` from the 214-grammar-correction notebook).

Texts and sentences are modelled as `List Char`.  The sentence splitter
models `re.split(r"(?<=[^A-Z].[.?]) +(?=[A-Z])", text)`: a left-to-right
scan over positions of the text; a match is a run of one or more spaces
whose start position satisfies the three-character lookbehind
(`[^A-Z]`, then any non-newline character, then `.` or `?`) and whose
end is followed by an ASCII uppercase letter; the text is cut at the
matches, which are removed.  Classifier scores are modelled as rationals.
-/

def isUpperAZ (c : Char) : Bool := decide ('A' ≤ c) && decide (c ≤ 'Z')

def isDotQm (c : Char) : Bool := c == '.' || c == '?'

/-- The lookbehind of the regex in the source,
`(?<=[^A-Z].[.?])`: three characters immediately before position `p`:
not-uppercase, then any character except newline, then `.` or `?`. -/
def lbCode (text : List Char) (p : Nat) : Bool :=
  match text[p-3]?, text[p-2]?, text[p-1]? with
  | some a, some b, some c =>
      decide (3 ≤ p) && !isUpperAZ a && !(b == '\n') && isDotQm c
  | _, _, _ => false

/-- Modelled from the spec: the lookbehind as the spec words it
(`[^A-Z]` then `[.?]`): two characters immediately before position `p`:
not-uppercase, then `.` or `?`. -/
def lbSpec (text : List Char) (p : Nat) : Bool :=
  match text[p-2]?, text[p-1]? with
  | some a, some c => decide (2 ≤ p) && !isUpperAZ a && isDotQm c
  | _, _ => false

/-- End of the run of spaces starting at position `i`. -/
def spaceRunEnd (text : List Char) (i : Nat) : Nat :=
  i + ((text.drop i).takeWhile (fun c => c == ' ')).length

/-- A regex match starting at position `i`, for lookbehind `lb`:
`lb` holds at `i`, the text has a run of one or more spaces starting at
`i`, and the character right after the run is an uppercase letter.
Returns the end position of the run of spaces. -/
def matchEndWith (lb : List Char → Nat → Bool) (text : List Char) (i : Nat) :
    Option Nat :=
  if lb text i && (text[i]? == some ' ') then
    match text[spaceRunEnd text i]? with
    | some d => if isUpperAZ d then some (spaceRunEnd text i) else none
    | none => none
  else none

/-- The match relation of the regex in the source. -/
def matchEnd : List Char → Nat → Option Nat := matchEndWith lbCode

/-- Left-to-right scan of `re.split`: `s` is the start of the current
piece, `i` the scan position; on a match `[i, j)` the piece `text[s:i]`
is emitted and the scan resumes at `j`.  `fuel` only bounds recursion
and is always sufficient at the entry point. -/
def reSplitGo (text : List Char) : Nat → Nat → Nat → List (List Char)
  | 0, s, _ => [text.drop s]
  | fuel+1, s, i =>
    if i < text.length then
      match matchEnd text i with
      | some j => ((text.drop s).take (i - s)) :: reSplitGo text fuel j j
      | none => reSplitGo text fuel s (i+1)
    else [text.drop s]

/-- `re.split(r"(?<=[^A-Z].[.?]) +(?=[A-Z])", text)`. -/
def reSplit (text : List Char) : List (List Char) :=
  reSplitGo text (text.length + 1) 0 0

/-- All matches of the heuristic with lookbehind `lb`, as
(start, end-of-spaces) pairs, in position order. -/
def specBoundaries (lb : List Char → Nat → Bool) (text : List Char) :
    List (Nat × Nat) :=
  (List.range text.length).filterMap
    (fun p => (matchEndWith lb text p).map (fun q => (p, q)))

/-- Cut `text` at the given (disjoint, ordered) match intervals,
dropping the matched characters; `s` is the start of the current piece. -/
def cutAt (text : List Char) : List (Nat × Nat) → Nat → List (List Char)
  | [], s => [text.drop s]
  | (p, q) :: rest, s => ((text.drop s).take (p - s)) :: cutAt text rest q

/-- Declarative splitter: cut the text at exactly the boundary
positions of the heuristic with lookbehind `lb`. -/
def specSplitWith (lb : List Char → Nat → Bool) (text : List Char) :
    List (List Char) :=
  cutAt text (specBoundaries lb text) 0

/-- The boundary pairs of the heuristic at positions `≥ i`. -/
def boundsFrom (lb : List Char → Nat → Bool) (text : List Char) (i : Nat) :
    List (Nat × Nat) :=
  (List.range' i (text.length - i)).filterMap
    (fun p => (matchEndWith lb text p).map (fun q => (p, q)))

/-- The batching loop of `split_text`: append each sentence to a
temporary batch, and flush the batch when its length is between 2 and 3
or the sentence equals (by value, as Python `==`) the last sentence of
the whole input.  A leftover temporary batch at the end is dropped. -/
def batchLoop (lastS : List Char) :
    List (List Char) → List (List Char) → List (List (List Char))
  | _, [] => []
  | temp, s :: rest =>
    let t := temp ++ [s]
    if (decide (2 ≤ t.length) && decide (t.length ≤ 3)) || s == lastS then
      t :: batchLoop lastS [] rest
    else
      batchLoop lastS t rest

/-- `split_text` from the source: sentence split, then batching.
`reSplit` never returns `[]`, so the `none` branch (where Python's
`sentences[-1]` would raise) is unreachable. -/
def split_text (text : List Char) : List (List (List Char)) :=
  match (reSplit text).getLast? with
  | some lastS => batchLoop lastS [] (reSplit text)
  | none => []

/-- Result of the text-classification pipeline: a label and a
confidence score (modelled as a rational number). -/
structure ClsResult where
  label : String
  score : ℚ
deriving DecidableEq

/-- The rewrite decision of `correct_text`, exactly as in the source:
`results[0]["label"] != "LABEL_1" or (results[0]["label"] == "LABEL_1"
and results[0]["score"] < 0.9)`; the threshold 0.9 is `mkRat 9 10`. -/
def shouldRewrite (r : ClsResult) : Bool :=
  (r.label != "LABEL_1") ||
    ((r.label == "LABEL_1") && decide (r.score < mkRat 9 10))

/-- `" ".join(batch)`. -/
def joinSp (batch : List (List Char)) : List Char :=
  List.intercalate [' '] batch

/-- Processing of one batch by `correct_text`: join the sentences with
a single space, classify, and rewrite when `shouldRewrite` holds.
Collaborators may fail (`Except`), as Python calls may raise.  Also
returns whether the corrector was invoked. -/
def correctBatch {ε : Type} (checker : List Char → Except ε ClsResult)
    (corrector : List Char → Except ε (List Char))
    (batch : List (List Char)) : Except ε (List Char) × Bool :=
  let raw := joinSp batch
  match checker raw with
  | .error e => (.error e, false)
  | .ok r =>
    if shouldRewrite r then
      match corrector raw with
      | .error e => (.error e, true)
      | .ok out => (.ok out, true)
    else (.ok raw, false)

/-- The batch loop of `correct_text`: process the batches in order,
stopping at the first collaborator failure (a raised exception aborts
the Python loop).  Besides the list of per-batch output strings it
returns the inputs of all checker calls and of all corrector calls
made, in order. -/
def runBatches {ε : Type} (checker : List Char → Except ε ClsResult)
    (corrector : List Char → Except ε (List Char)) :
    List (List (List Char)) →
      Except ε (List (List Char)) × List (List Char) × List (List Char)
  | [] => (.ok [], [], [])
  | b :: rest =>
    let raw := joinSp b
    match correctBatch checker corrector b with
    | (.error e, rw) => (.error e, [raw], if rw then [raw] else [])
    | (.ok out, rw) =>
      let (res, cc, rc) := runBatches checker corrector rest
      ((match res with
        | .ok outs => .ok (out :: outs)
        | .error e => .error e),
       raw :: cc, if rw then raw :: rc else rc)

/-- `correct_text` from the source: split the text into batches,
process each batch, and join the per-batch outputs with `sep`
(default a single space). -/
def correct_text {ε : Type} (checker : List Char → Except ε ClsResult)
    (corrector : List Char → Except ε (List Char)) (text : List Char)
    (sep : List Char := [' ']) : Except ε (List Char) :=
  match (runBatches checker corrector (split_text text)).1 with
  | .ok outs => .ok (List.intercalate sep outs)
  | .error e => .error e

/-- A collaborator that never fails, from a total function. -/
def okFn {ε α : Type} (f : List Char → α) : List Char → Except ε α :=
  fun s => .ok (f s)

/-- The output `correct_text` keeps for a batch when collaborators are
total: the corrector's output when `shouldRewrite` holds for the
classification of the joined batch, the joined batch itself otherwise. -/
def outIf (cls : List Char → ClsResult) (cor : List Char → List Char)
    (b : List (List Char)) : List Char :=
  if shouldRewrite (cls (joinSp b)) then cor (joinSp b) else joinSp b

/-! Concrete inputs used as counterexamples and witnesses. -/

def t4cex : List Char := ("He is ok. Fine. He is ok.").toList

def t7cex : List Char := ("Xab. Xab.").toList

def t8cex : List Char := ("Aa bb. Cc dd. Ee ff. Gg hh. Ii jj.").toList

def hiBye : List Char := ("Hi. Bye").toList

/-! Properties of the batching loop. -/

theorem batchLoop_cons (lastS : List Char) (temp : List (List Char))
    (s : List Char) (rest : List (List Char)) :
    batchLoop lastS temp (s :: rest)
      = if (decide (2 ≤ (temp ++ [s]).length)
            && decide ((temp ++ [s]).length ≤ 3)) || s == lastS then
          (temp ++ [s]) :: batchLoop lastS [] rest
        else batchLoop lastS (temp ++ [s]) rest := rfl

theorem batchLoop_flatten (ss : List (List Char)) :
    ∀ (temp : List (List Char)) (lastS : List Char),
      ss.getLast? = some lastS →
      (batchLoop lastS temp ss).flatten = temp ++ ss := by
  induction ss with
  | nil => intro temp lastS h; simp at h
  | cons s rest ih =>
    intro temp lastS h
    cases rest with
    | nil =>
      simp only [List.getLast?_singleton, Option.some.injEq] at h
      subst h
      have hb : (s == s) = true := beq_self_eq_true s
      simp [batchLoop_cons, hb, batchLoop]
    | cons s2 rest2 =>
      rw [List.getLast?_cons_cons] at h
      by_cases hc :
          ((decide (2 ≤ (temp ++ [s]).length)
            && decide ((temp ++ [s]).length ≤ 3)) || s == lastS) = true
      · rw [batchLoop_cons, if_pos hc, List.flatten_cons, ih [] lastS h]
        simp
      · rw [batchLoop_cons, if_neg hc, ih (temp ++ [s]) lastS h]
        simp

theorem batchLoop_sizes (ss : List (List Char)) :
    ∀ (temp : List (List Char)) (lastS : List Char), temp.length ≤ 1 →
      ∀ b ∈ batchLoop lastS temp ss,
        (1 ≤ b.length ∧ b.length ≤ 2) ∧ (b.length = 1 → b = [lastS]) := by
  induction ss with
  | nil => intro temp lastS _ b hb; simp [batchLoop] at hb
  | cons s rest ih =>
    intro temp lastS htemp b hb
    by_cases hc :
        ((decide (2 ≤ (temp ++ [s]).length)
          && decide ((temp ++ [s]).length ≤ 3)) || s == lastS) = true
    · rw [batchLoop_cons, if_pos hc] at hb
      rcases List.mem_cons.mp hb with hb | hb
      · subst hb
        refine ⟨⟨by simp, by
          simp only [List.length_append, List.length_cons, List.length_nil]
          omega⟩, fun h1 => ?_⟩
        have hT : temp = [] := by
          rcases temp with _ | ⟨x, t⟩
          · rfl
          · exfalso
            simp only [List.length_append, List.length_cons, List.length_nil] at h1
            omega
        subst hT
        rcases Bool.or_eq_true _ _ |>.mp hc with hl | hr
        · simp at hl
        · simp only [List.nil_append]
          have := beq_iff_eq.mp hr
          rw [this]
      · exact ih [] lastS (by simp) b hb
    · rw [batchLoop_cons, if_neg hc] at hb
      have hlen : (temp ++ [s]).length ≤ 1 := by
        by_contra hgt
        apply hc
        have h2 : 2 ≤ (temp ++ [s]).length := by omega
        have h3 : (temp ++ [s]).length ≤ 3 := by
          simp only [List.length_append, List.length_cons, List.length_nil]
          omega
        simp only [Bool.or_eq_true, Bool.and_eq_true, decide_eq_true_eq]
        exact Or.inl ⟨h2, h3⟩
      exact ih (temp ++ [s]) lastS hlen b hb

theorem reSplitGo_ne_nil (text : List Char) :
    ∀ (fuel s i : Nat), reSplitGo text fuel s i ≠ [] := by
  intro fuel
  induction fuel with
  | zero => intro s i; simp [reSplitGo]
  | succ fuel ih =>
    intro s i
    simp only [reSplitGo]
    by_cases hi : i < text.length
    · rw [if_pos hi]
      cases hm : matchEnd text i with
      | some j => simp
      | none => exact ih s (i+1)
    · rw [if_neg hi]; simp

theorem reSplit_ne_nil (text : List Char) : reSplit text ≠ [] :=
  reSplitGo_ne_nil text (text.length + 1) 0 0

theorem batchLoop_ne_nil (ss : List (List Char)) (temp : List (List Char))
    (lastS : List Char) (h : ss.getLast? = some lastS) :
    batchLoop lastS temp ss ≠ [] := by
  intro hE
  have hj := batchLoop_flatten ss temp lastS h
  rw [hE] at hj
  have : ss = [] := by
    cases ss with
    | nil => rfl
    | cons a t => simp at hj
  subst this
  simp at h

/-! The orchestrator with total collaborators. -/

theorem intercalate_singleton (sep x : List Char) :
    List.intercalate sep [x] = x := by
  simp [List.intercalate]

theorem correctBatch_okFn {ε : Type} (cls : List Char → ClsResult)
    (cor : List Char → List Char) (b : List (List Char)) :
    correctBatch (ε := ε) (okFn cls) (okFn cor) b
      = (.ok (outIf cls cor b), shouldRewrite (cls (joinSp b))) := by
  simp only [correctBatch, okFn, outIf]
  by_cases h : shouldRewrite (cls (joinSp b)) = true
  · rw [if_pos h, if_pos h, h]
  · rw [if_neg h, if_neg h]
    simp only [Bool.not_eq_true] at h
    rw [h]

/-- With total collaborators, `runBatches` succeeds; the per-batch
outputs are given by `outIf`, the checker is called once per batch on
the joined batch, and the corrector is called exactly on the joined
batches for which `shouldRewrite` holds, in batch order. -/
theorem runBatches_okFn {ε : Type} (cls : List Char → ClsResult)
    (cor : List Char → List Char) (bs : List (List (List Char))) :
    runBatches (ε := ε) (okFn cls) (okFn cor) bs
      = (.ok (bs.map (outIf cls cor)), bs.map joinSp,
         (bs.map joinSp).filter (fun raw => shouldRewrite (cls raw))) := by
  induction bs with
  | nil => rfl
  | cons b rest ih =>
    simp only [runBatches, correctBatch_okFn, ih, List.map_cons,
      List.filter_cons]

/-! The scan of `re.split` cuts exactly at the boundary positions. -/

theorem getElem?_eq_space_of_lt_run (l : List Char) :
    ∀ k, k < (l.takeWhile (fun c => c == ' ')).length → l[k]? = some ' ' := by
  induction l with
  | nil => intro k h; simp at h
  | cons c t ih =>
    intro k h
    by_cases hc : (c == ' ') = true
    · rw [List.takeWhile_cons, if_pos hc] at h
      cases k with
      | zero => simpa using beq_iff_eq.mp hc
      | succ k => simpa using ih k (by simpa using h)
    · rw [List.takeWhile_cons, if_neg hc] at h
      simp at h

theorem spaceRunEnd_spaces (text : List Char) (i k : Nat) (h1 : i ≤ k)
    (h2 : k < spaceRunEnd text i) : text[k]? = some ' ' := by
  have hk : k - i < ((text.drop i).takeWhile (fun c => c == ' ')).length := by
    unfold spaceRunEnd at h2; omega
  have hs := getElem?_eq_space_of_lt_run (text.drop i) (k - i) hk
  rw [List.getElem?_drop] at hs
  rwa [Nat.add_sub_cancel' h1] at hs

theorem lt_spaceRunEnd_of_space (text : List Char) (i : Nat)
    (h : text[i]? = some ' ') : i < spaceRunEnd text i := by
  have h0 : (text.drop i)[0]? = some ' ' := by
    rw [List.getElem?_drop]
    simpa using h
  unfold spaceRunEnd
  cases hd : text.drop i with
  | nil => rw [hd] at h0; simp at h0
  | cons c t =>
    rw [hd] at h0
    simp only [List.getElem?_cons_zero, Option.some.injEq] at h0
    subst h0
    rw [List.takeWhile_cons]
    simp

theorem matchEndWith_some {lb : List Char → Nat → Bool} {text : List Char}
    {i j : Nat} (h : matchEndWith lb text i = some j) :
    lb text i = true ∧ text[i]? = some ' ' ∧ j = spaceRunEnd text i ∧
      ∃ d, text[j]? = some d ∧ isUpperAZ d = true := by
  unfold matchEndWith at h
  split at h
  · rename_i hcond
    rcases Bool.and_eq_true _ _ |>.mp hcond with ⟨h1, h2⟩
    split at h
    · rename_i d hm
      split at h
      · rename_i hu
        injection h with h
        subst h
        exact ⟨h1, beq_iff_eq.mp h2, rfl, d, hm, hu⟩
      · simp at h
    · simp at h
  · simp at h

theorem matchEndWith_none_of_lb_false {lb : List Char → Nat → Bool}
    {text : List Char} {p : Nat} (h : lb text p = false) :
    matchEndWith lb text p = none := by
  unfold matchEndWith
  rw [h]
  simp

theorem lbCode_eq_false_of_space (text : List Char) (p : Nat)
    (h : text[p-1]? = some ' ') : lbCode text p = false := by
  unfold lbCode
  rw [h]
  cases text[p-3]? <;> cases text[p-2]? <;> simp [isDotQm]

theorem boundsFrom_of_le {lb : List Char → Nat → Bool} {text : List Char}
    {i : Nat} (h : text.length ≤ i) : boundsFrom lb text i = [] := by
  unfold boundsFrom
  rw [Nat.sub_eq_zero_of_le h]
  rfl

theorem boundsFrom_cons_some {lb : List Char → Nat → Bool} {text : List Char}
    {i j : Nat} (hi : i < text.length)
    (hm : matchEndWith lb text i = some j) :
    boundsFrom lb text i = (i, j) :: boundsFrom lb text (i+1) := by
  unfold boundsFrom
  have hlen : text.length - i = (text.length - (i+1)) + 1 := by omega
  rw [hlen, List.range'_succ, List.filterMap_cons, hm]
  rfl

theorem boundsFrom_succ_of_none {lb : List Char → Nat → Bool}
    {text : List Char} {i : Nat} (hm : matchEndWith lb text i = none) :
    boundsFrom lb text i = boundsFrom lb text (i+1) := by
  by_cases hi : i < text.length
  · unfold boundsFrom
    have hlen : text.length - i = (text.length - (i+1)) + 1 := by omega
    rw [hlen, List.range'_succ, List.filterMap_cons, hm]
    rfl
  · rw [boundsFrom_of_le (by omega), boundsFrom_of_le (by omega)]

theorem boundsFrom_eq_of_none {lb : List Char → Nat → Bool}
    {text : List Char} :
    ∀ (n a : Nat),
      (∀ p, a ≤ p → p < a + n → matchEndWith lb text p = none) →
      boundsFrom lb text a = boundsFrom lb text (a + n) := by
  intro n
  induction n with
  | zero => intro a _; rfl
  | succ n ih =>
    intro a h
    rw [boundsFrom_succ_of_none (h a le_rfl (by omega))]
    rw [ih (a+1) (fun p hp1 hp2 => h p (by omega) (by omega))]
    have hn : a + 1 + n = a + (n + 1) := by omega
    rw [hn]

theorem cutAt_cons (text : List Char) (p q : Nat) (rest : List (Nat × Nat))
    (s : Nat) :
    cutAt text ((p, q) :: rest) s
      = ((text.drop s).take (p - s)) :: cutAt text rest q := rfl

theorem reSplitGo_eq_cutAt (text : List Char) :
    ∀ (fuel i s : Nat), text.length ≤ i + fuel →
      reSplitGo text fuel s i = cutAt text (boundsFrom lbCode text i) s := by
  intro fuel
  induction fuel with
  | zero =>
    intro i s h
    rw [boundsFrom_of_le (by omega)]
    rfl
  | succ fuel ih =>
    intro i s h
    by_cases hi : i < text.length
    · simp only [reSplitGo]
      rw [if_pos hi]
      cases hm : matchEnd text i with
      | none =>
        have hm' : matchEndWith lbCode text i = none := hm
        rw [boundsFrom_succ_of_none hm']
        exact ih (i+1) s (by omega)
      | some j =>
        have hm' : matchEndWith lbCode text i = some j := hm
        obtain ⟨hlb, hsp, hj, d, hd, hu⟩ := matchEndWith_some hm'
        have hij : i < j := by
          have := lt_spaceRunEnd_of_space text i hsp
          omega
        rw [boundsFrom_cons_some hi hm', cutAt_cons]
        have hnone : ∀ p, i+1 ≤ p → p < j →
            matchEndWith lbCode text p = none := by
          intro p hp1 hp2
          apply matchEndWith_none_of_lb_false
          apply lbCode_eq_false_of_space
          apply spaceRunEnd_spaces text i (p-1) (by omega)
          rw [← hj]
          omega
        have hbf : boundsFrom lbCode text (i+1) = boundsFrom lbCode text j := by
          rw [boundsFrom_eq_of_none (j - (i+1)) (i+1)
            (fun p hp1 hp2 => hnone p hp1 (by omega))]
          have hn : i + 1 + (j - (i + 1)) = j := by omega
          rw [hn]
        rw [hbf]
        exact congrArg
          (fun l => List.take (i - s) (List.drop s text) :: l)
          (ih j j (by omega))
    · simp only [reSplitGo]
      rw [if_neg hi, boundsFrom_of_le (by omega)]
      rfl

theorem reSplit_eq_specSplit (text : List Char) :
    reSplit text = specSplitWith lbCode text := by
  unfold reSplit specSplitWith
  rw [reSplitGo_eq_cutAt text (text.length + 1) 0 0 (by omega)]
  congr 1
  unfold boundsFrom specBoundaries
  rw [List.range_eq_range']
  congr 1

/-! The claims. -/

/-- C1: for every batch processed by `correct_text` (with collaborators
that do not fail), the rewriter is invoked exactly on the batches whose
classification does not satisfy (label = LABEL_1, i.e. UNACCEPTABLE,
and score ≥ 0.9); `shouldRewrite` holds iff it is not the case that the
label is LABEL_1 with score ≥ 9/10; at score exactly 9/10 the batch is
not rewritten, at 8999/10000 it is, and any other label (including an
unknown one) is always rewritten regardless of score. -/
theorem C1_rewrite_trigger (ε : Type) (cls : List Char → ClsResult)
    (cor : List Char → List Char) (text : List Char) :
    (runBatches (ε := ε) (okFn cls) (okFn cor) (split_text text)).2.2
      = ((split_text text).map joinSp).filter
          (fun raw => shouldRewrite (cls raw))
    ∧ (∀ r : ClsResult,
        shouldRewrite r = true ↔ ¬(r.label = "LABEL_1" ∧ mkRat 9 10 ≤ r.score))
    ∧ shouldRewrite ⟨"LABEL_1", mkRat 9 10⟩ = false
    ∧ shouldRewrite ⟨"LABEL_1", mkRat 8999 10000⟩ = true
    ∧ shouldRewrite ⟨"SOME_OTHER_LABEL", 1⟩ = true := by
  refine ⟨?_, ?_, by decide, by decide, by decide⟩
  · rw [runBatches_okFn]
  · intro r
    unfold shouldRewrite
    by_cases hl : r.label = "LABEL_1"
    · simp [hl, not_le]
    · simp [hl]

/-- C2 (counterexample): on the empty input string, `split_text` does
not return the empty batch sequence. -/
theorem C2_counterexample : split_text ([] : List Char) ≠ [] := by decide

/-- C2 (amended): on the empty input string, `split_text` returns one
batch holding a single empty sentence; `correct_text` (with
non-failing collaborators) makes exactly one classifier call, on the
empty string, and returns the empty string if the classification is
LABEL_1 with score ≥ 0.9, otherwise the rewriter's output on the empty
string. -/
theorem C2_empty_string :
    split_text ([] : List Char) = [[[]]]
    ∧ ∀ (ε : Type) (cls : List Char → ClsResult)
        (cor : List Char → List Char) (sep : List Char),
        (runBatches (ε := ε) (okFn cls) (okFn cor) (split_text [])).2.1 = [[]]
        ∧ correct_text (okFn (ε := ε) cls) (okFn cor) [] sep
            = .ok (if shouldRewrite (cls []) then cor [] else []) := by
  refine ⟨by decide, fun ε cls cor sep => ?_⟩
  have hsp : split_text ([] : List Char) = [[[]]] := by decide
  have hjs : joinSp [[]] = ([] : List Char) := rfl
  constructor
  · rw [hsp, runBatches_okFn]
    simp [hjs]
  · unfold correct_text
    rw [hsp, runBatches_okFn]
    simp only [List.map_cons, List.map_nil, intercalate_singleton]
    rw [show outIf cls cor [[]] = if shouldRewrite (cls []) then cor [] else []
      from by unfold outIf; rw [hjs]]

/-- C3: for every input text, concatenating the sentences of all
batches of `split_text`, in batch order and within-batch order, yields
exactly the sentence sequence of the boundary-detection split
(`reSplit`): no sentence dropped, none duplicated, order unchanged. -/
theorem C3_coverage (text : List Char) :
    (split_text text).flatten = reSplit text := by
  unfold split_text
  split
  next lastS h => simpa using batchLoop_flatten (reSplit text) [] lastS h
  next h =>
    rw [List.getLast?_eq_none_iff] at h
    rw [h]
    rfl

/-- C4 (counterexample): on the input
`"He is ok. Fine. He is ok."` the first batch is not the final one and
has a single sentence, so not every non-final batch has 2 or 3
sentences. -/
theorem C4_counterexample :
    ¬ (∀ b ∈ (split_text t4cex).dropLast, 2 ≤ b.length ∧ b.length ≤ 3) := by
  decide

/-- C4 (amended): every batch of `split_text` has 1 or 2 sentences
(never 3), and a batch of size 1 always consists of a sentence equal in
value to the last sentence of the split — the final batch, or an
earlier batch closed early by the value-equality last-sentence check. -/
theorem C4_batch_sizes (text : List Char) (b : List (List Char))
    (hb : b ∈ split_text text) :
    (1 ≤ b.length ∧ b.length ≤ 2)
    ∧ (b.length = 1 → ∃ s, b = [s] ∧ (reSplit text).getLast? = some s) := by
  unfold split_text at hb
  split at hb
  next lastS h =>
    have hs := batchLoop_sizes (reSplit text) [] lastS (by simp) b hb
    exact ⟨hs.1, fun h1 => ⟨lastS, hs.2 h1, h ▸ rfl⟩⟩
  next h => simp at hb

theorem C4_batch_sizes_witness :
    (1 ≤ ([("He is ok.").toList] : List (List Char)).length
      ∧ ([("He is ok.").toList] : List (List Char)).length ≤ 2)
    ∧ (([("He is ok.").toList] : List (List Char)).length = 1 →
        ∃ s, ([("He is ok.").toList] : List (List Char)) = [s]
          ∧ (reSplit t4cex).getLast? = some s) :=
  C4_batch_sizes t4cex [("He is ok.").toList] (by decide)

/-- C5 (counterexample): on the input `"Hi. Bye"`, the code's split
(`reSplit`) disagrees with splitting at the boundary positions of the
spec's stated heuristic (lookbehind `[^A-Z]` then `[.?]`): the spec
heuristic puts a boundary after `"Hi."`, the code does not (its
three-character lookbehind fails since `H` is uppercase). -/
theorem C5_counterexample :
    reSplit hiBye ≠ specSplitWith lbSpec hiBye
    ∧ specSplitWith lbSpec hiBye = [("Hi.").toList, ("Bye").toList]
    ∧ reSplit hiBye = [("Hi. Bye").toList] := by decide

/-- C5 (amended): the boundary heuristic's lookbehind is `[^A-Z]` then
any (non-newline) character then `[.?]`; for every input, the sentence
sequence of the code's scan equals the result of cutting the text at
exactly the boundary positions of that heuristic. -/
theorem C5_boundary_heuristic (text : List Char) :
    reSplit text = specSplitWith lbCode text :=
  reSplit_eq_specSplit text

/-- C6: with non-failing collaborators, a batch classified LABEL_1
(UNACCEPTABLE) with score ≥ 0.9 contributes its sentences joined with a
single space, byte-identical and with no corrector call for it, and the
final result of `correct_text` is the per-batch outputs joined with the
separator in batch order. -/
theorem C6_passthrough_and_join (ε : Type) (cls : List Char → ClsResult)
    (cor : List Char → List Char) (text sep : List Char) :
    correct_text (okFn (ε := ε) cls) (okFn cor) text sep
      = .ok (List.intercalate sep ((split_text text).map (outIf cls cor)))
    ∧ ∀ b ∈ split_text text,
        (cls (joinSp b)).label = "LABEL_1" →
        mkRat 9 10 ≤ (cls (joinSp b)).score →
          outIf cls cor b = joinSp b
          ∧ joinSp b ∉
              (runBatches (okFn (ε := ε) cls) (okFn cor)
                (split_text text)).2.2 := by
  constructor
  · unfold correct_text
    rw [runBatches_okFn]
  · intro b _ hl hs
    have hsw : shouldRewrite (cls (joinSp b)) = false := by
      unfold shouldRewrite
      simp [hl, decide_eq_false (not_lt.2 hs)]
    constructor
    · simp [outIf, hsw]
    · rw [runBatches_okFn]
      intro hmem
      have hP := (List.mem_filter.mp hmem).2
      simp only [hsw] at hP
      exact Bool.false_ne_true hP

theorem C6_witness :
    outIf (fun _ => ⟨"LABEL_1", 1⟩) (fun _ => []) [['a']]
        = joinSp [['a']]
    ∧ joinSp [['a']] ∉
        (runBatches (okFn (ε := Nat) (fun _ => ⟨"LABEL_1", 1⟩))
          (okFn (fun _ => [])) (split_text ['a'])).2.2 :=
  (C6_passthrough_and_join Nat (fun _ => ⟨"LABEL_1", 1⟩) (fun _ => [])
    ['a'] [' ']).2 [['a']] (by decide) (by decide) (by decide)

/-- C7: on the failing input `"Xab. Xab."` (two sentences, the second
equal in value to the first), the code's value-equality last-sentence
check closes the first batch early: `split_text` yields two singleton
batches, not the single two-sentence batch the claim (and the spec's
positional-identity rule) requires; each sentence is still emitted
exactly once. -/
theorem C7_value_equality_close :
    reSplit t7cex = [("Xab.").toList, ("Xab.").toList]
    ∧ split_text t7cex = [[("Xab.").toList], [("Xab.").toList]]
    ∧ split_text t7cex ≠ [[("Xab.").toList, ("Xab.").toList]] := by decide

/-- C8 (counterexample): the input
`"Aa bb. Cc dd. Ee ff. Gg hh. Ii jj."` splits into exactly 5 sentences
with all boundaries detected, yet the batch sizes are `[2, 2, 1]`,
neither `[2, 3]` nor `[3, 2]`. -/
theorem C8_counterexample :
    (reSplit t8cex).length = 5
    ∧ (split_text t8cex).map List.length ≠ [2, 3]
    ∧ (split_text t8cex).map List.length ≠ [3, 2]
    ∧ (split_text t8cex).map List.length = [2, 2, 1] := by decide

/-- C8 (amended): for every input whose segmentation yields exactly 5
sentences, provided the 1st and 3rd sentences differ in value from the
5th (so no early value-equality close fires), `split_text` returns
batches of sizes `[2, 2, 1]` covering all 5 sentences exactly once, in
order. -/
theorem C8_five_sentences (text : List Char) (a b c d e : List Char)
    (h : reSplit text = [a, b, c, d, e]) (h1 : a ≠ e) (h2 : c ≠ e) :
    split_text text = [[a, b], [c, d], [e]] := by
  unfold split_text
  rw [h]
  have ha : (a == e) = false := beq_eq_false_iff_ne.mpr h1
  have hc : (c == e) = false := beq_eq_false_iff_ne.mpr h2
  simp [batchLoop_cons, batchLoop, ha, hc]

theorem C8_five_sentences_witness :
    split_text t8cex
      = [[("Aa bb.").toList, ("Cc dd.").toList],
         [("Ee ff.").toList, ("Gg hh.").toList],
         [("Ii jj.").toList]] :=
  C8_five_sentences t8cex ("Aa bb.").toList ("Cc dd.").toList
    ("Ee ff.").toList ("Gg hh.").toList ("Ii jj.").toList
    (by decide) (by decide) (by decide)

theorem runBatches_first_error {ε : Type}
    (checker : List Char → Except ε ClsResult)
    (corrector : List Char → Except ε (List Char))
    (b : List (List Char)) (post : List (List (List Char))) (e : ε) :
    ∀ pre : List (List (List Char)),
      (∀ x ∈ pre, ∃ out w, correctBatch checker corrector x = (.ok out, w)) →
      (correctBatch checker corrector b).1 = .error e →
      (runBatches checker corrector (pre ++ b :: post)).1 = .error e := by
  intro pre
  induction pre with
  | nil =>
    intro _ herr
    cases hcb : correctBatch checker corrector b with
    | mk fst snd =>
      rw [hcb] at herr
      simp only at herr
      subst herr
      simp [runBatches, hcb]
  | cons x rest ih =>
    intro hpre herr
    obtain ⟨out, w, hx⟩ := hpre x (List.mem_cons_self x rest)
    have hrec := ih (fun y hy => hpre y (List.mem_cons_of_mem x hy)) herr
    rcases hq : runBatches checker corrector (rest ++ b :: post)
      with ⟨res, cc, rc⟩
    have hres : res = Except.error e := by rw [hq] at hrec; exact hrec
    subst hres
    rw [List.cons_append]
    simp only [runBatches, hx, hq]

/-- C9: a collaborator failure on a batch (all earlier batches having
succeeded) aborts the whole `correct_text` call with that error: the
error is propagated, not caught or downgraded, and no partial result is
returned. -/
theorem C9_error_propagation (ε : Type)
    (checker : List Char → Except ε ClsResult)
    (corrector : List Char → Except ε (List Char)) (text sep : List Char)
    (pre post : List (List (List Char))) (b : List (List Char)) (e : ε)
    (hsplit : split_text text = pre ++ b :: post)
    (hpre : ∀ x ∈ pre, ∃ out w,
      correctBatch checker corrector x = (.ok out, w))
    (herr : (correctBatch checker corrector b).1 = .error e) :
    correct_text checker corrector text sep = .error e := by
  unfold correct_text
  rw [hsplit, runBatches_first_error checker corrector b post e pre hpre herr]

theorem C9_witness :
    correct_text (ε := Nat) (fun _ => .error 7) (okFn (fun s => s))
      ['a'] [' '] = .error 7 :=
  C9_error_propagation Nat (fun _ => .error 7) (okFn (fun s => s))
    ['a'] [' '] [] [] [['a']] 7 (by decide)
    (by intro x hx; simp at hx) (by rfl)

/-- C10: for every input text, every batch of `split_text` has at least
1 and at most 2 sentences (size 3 never occurs, the temporary batch
being flushed as soon as it reaches 2), and `split_text` returns at
least one batch for every input, the empty string included. -/
theorem C10_batch_bounds (text : List Char) :
    split_text text ≠ []
    ∧ ∀ b ∈ split_text text, 1 ≤ b.length ∧ b.length ≤ 2 := by
  constructor
  · unfold split_text
    split
    next lastS h => exact batchLoop_ne_nil (reSplit text) [] lastS h
    next h =>
      exact absurd (List.getLast?_eq_none_iff.mp h) (reSplit_ne_nil text)
  · intro b hb
    unfold split_text at hb
    split at hb
    next lastS h =>
      exact (batchLoop_sizes (reSplit text) [] lastS (by simp) b hb).1
    next h => simp at hb

theorem C10_batch_bounds_witness :
    split_text ['a'] ≠ []
    ∧ (1 ≤ ([['a']] : List (List Char)).length
        ∧ ([['a']] : List (List Char)).length ≤ 2) :=
  ⟨(C10_batch_bounds ['a']).1, (C10_batch_bounds ['a']).2 [['a']] (by decide)⟩
